import Mathlib

/-!
Verification of the geometric text-selection engine of WebLinguaReader.

The development shallowly embeds the selection core:
`DOMRectUtils` (src/src/selection/DOMRectUtils.ts), the layout block
builder `computeLayoutBlocks` (src/src/selection/LayoutBlock.ts), the
position resolver `getPreferredTextNode1` / `getPreferredTextNodeOfSpans` /
`getPreferredTextNode` / `getClosestTextNodeOfSpans` (src/SelectionUtils.ts,
mirrored by getSelectNodeBy1 / getSelectNodeOfSpans in the sibling module),
and the word-boundary expansion `selectWordAtNode` (src/SelectionUtils.ts).
The two staged resolver copies import different DOMRectUtils: the sibling
module uses the null-safe src/src/selection copy (embedded as `resolve1`),
while src/SelectionUtils.ts imports the variant whose `union` has no null
handling and whose `isIntersect` is strict, giving it an extra TypeError
path (embedded as `resolve1V`).

Modelling conventions:
* JS numbers are modelled as exact rationals; floating-point rounding is out
  of scope.
* A DOM span is modelled as a `Frag`: its bounding client rect plus the
  length of its text content.  `span.firstChild` exists iff the text is
  non-empty.
* The host selection geometry (`window.getSelection` bounding rect) is an
  explicit `Option Rect` input, following the capability interface of the
  spec.
* The host caret-from-point primitive (`document.caretPositionFromPoint`) is
  a browser API outside the repository; the embedding models the degraded
  mode in which it is unavailable, so the midpoint fallback of the source is
  taken on a direct hit.
* JS `Array.prototype.sort` (stable since ES2019) is modelled by a stable
  insertion sort with the same comparator.
* Object identity (`===`) on layout blocks is modelled by the index of the
  block in the block list, which matches reference equality because each
  array entry is a distinct freshly-allocated object.
-/

namespace WebLingua

/-- An axis-aligned box in client coordinates, as stored by a (normalized)
DOMRect: `left = x`, `right = x + width` with `width ≥ 0` for every rect the
engine reads from `getBoundingClientRect` or builds with `union`. -/
structure Rect where
  left : ℚ
  top : ℚ
  right : ℚ
  bottom : ℚ
deriving Repr, DecidableEq

namespace Rect

/-- `DOMRect.width` of a normalized rect. -/
def width (r : Rect) : ℚ := r.right - r.left

/-- `DOMRect.height` of a normalized rect. -/
def height (r : Rect) : ℚ := r.bottom - r.top

end Rect

namespace DOMRectUtils

/-- `DOMRectUtils.union` on two non-null rects: the bounding box of both
(source takes min of x/y and max of right/bottom and rebuilds the rect). -/
def union (r1 r2 : Rect) : Rect :=
  { left := min r1.left r2.left
    top := min r1.top r2.top
    right := max r1.right r2.right
    bottom := max r1.bottom r2.bottom }

/-- `DOMRectUtils.union` including its null handling: a null operand acts as
identity (the source returns the other argument unchanged). -/
def unionO : Option Rect → Option Rect → Option Rect
  | none, r2 => r2
  | some r1, none => some r1
  | some r1, some r2 => some (union r1 r2)

/-- `DOMRectUtils.isIntersect` on non-null rects: closed-interval overlap
test, boundary touches count as intersecting. -/
def isIntersectB (r1 r2 : Rect) : Bool :=
  decide (r1.left ≤ r2.right) && decide (r1.right ≥ r2.left) &&
  decide (r1.top ≤ r2.bottom) && decide (r1.bottom ≥ r2.top)

/-- `DOMRectUtils.isIntersect` with its null handling (null never
intersects). -/
def isIntersectO : Option Rect → Option Rect → Bool
  | some r1, some r2 => isIntersectB r1 r2
  | _, _ => false

/-- `DOMRectUtils.intersect`: overlap box, or null when the rects do not
intersect (or an operand is null). -/
def intersectO : Option Rect → Option Rect → Option Rect
  | some r1, some r2 =>
    if isIntersectB r1 r2 then
      some { left := max r1.left r2.left
             top := max r1.top r2.top
             right := min r1.right r2.right
             bottom := min r1.bottom r2.bottom }
    else none
  | _, _ => none

/-- `DOMRectUtils.contains` on non-null rects: the inner rect's four edges
are within the outer rect's inclusive bounds. -/
def containsB (outer inner : Rect) : Bool :=
  decide (outer.left ≤ inner.left) && decide (outer.right ≥ inner.right) &&
  decide (outer.top ≤ inner.top) && decide (outer.bottom ≥ inner.bottom)

/-- `DOMRectUtils.contains` with a possibly-null outer rect (the resolver
calls it on a nullable mouse block); a null outer contains nothing. -/
def containsO (outer : Option Rect) (inner : Rect) : Bool :=
  match outer with
  | none => false
  | some o => containsB o inner

/-- `DOMRectUtils.containsCoord`: inclusive point membership. -/
def containsCoord (outer : Rect) (x y : ℚ) : Bool :=
  decide (outer.left ≤ x) && decide (outer.right ≥ x) &&
  decide (outer.top ≤ y) && decide (outer.bottom ≥ y)

end DOMRectUtils

open DOMRectUtils

/-! ## Layout block builder (src/src/selection/LayoutBlock.ts) -/

/-- The merge criterion of the scan loop of `computeLayoutBlocks`: the next
fragment box `r` joins the current block `c` when it is vertically close
(top within 20px below the block's bottom, which includes every box starting
above the bottom) and at least one horizontal alignment signal holds:
near-equal left edges, near-equal right edges, a small positive same-line
gap, straddling left/right edges, or geometric intersection. -/
def mergeCond (c r : Rect) : Bool :=
  decide (r.top - c.bottom < 20) &&
  (decide (|r.left - c.left| < 20) ||
   decide (|r.right - c.right| < 20) ||
   (decide (r.left - c.right < 5) && decide (r.left - c.right > 0)) ||
   decide ((c.left - r.left) * (c.right - r.right) < 0) ||
   isIntersectB c r)

/-- Closing the current block in the scan: coalesce with the most recently
pushed block when `DOMRectUtils.intersect` of the two is non-null, else push.
The accumulator is kept in reverse order (head = last pushed). -/
def pushBlock (accRev : List Rect) (c : Rect) : List Rect :=
  match accRev with
  | [] => [c]
  | lastB :: restRev =>
    if (intersectO (some c) (some lastB)).isSome then
      union c lastB :: restRev
    else
      c :: lastB :: restRev

/-- The scan loop of `computeLayoutBlocks`: walk the fragment boxes in
document order, skipping zero-width/zero-height boxes, merging each next box
into the current block when `mergeCond` holds, otherwise closing the current
block with `pushBlock` and starting a new one.  The trailing current block is
pushed without the coalesce check, as in the source. -/
def scanBlocks (accRev : List Rect) (cur : Option Rect) : List Rect → List Rect
  | [] =>
    match cur with
    | some c => (c :: accRev).reverse
    | none => accRev.reverse
  | r :: rs =>
    if r.width = 0 ∨ r.height = 0 then scanBlocks accRev cur rs
    else
      match cur with
      | none => scanBlocks accRev (some r) rs
      | some c =>
        if mergeCond c r then scanBlocks accRev (some (union c r)) rs
        else scanBlocks (pushBlock accRev c) (some r) rs

/-- Reading order used by the sort comparator `(a,b) => a.left - b.left ||
a.top - b.top`: strictly smaller left edge, or equal left edge and strictly
smaller top edge. -/
def lexLt (a b : Rect) : Prop := a.left < b.left ∨ (a.left = b.left ∧ a.top < b.top)

instance (a b : Rect) : Decidable (lexLt a b) := by unfold lexLt; infer_instance

/-- One step of the stable sort: insert a block after every block that is not
strictly greater, as JS stable `sort` keeps equal-keyed elements in order. -/
def insertBlock (r : Rect) : List Rect → List Rect
  | [] => [r]
  | b :: bs => if lexLt r b then r :: b :: bs else b :: insertBlock r bs

/-- The reading-order sort of the block list (stable, comparator
`left` then `top`). -/
def sortBlocks (l : List Rect) : List Rect :=
  l.foldl (fun acc r => insertBlock r acc) []

/-- The final merge pass of `computeLayoutBlocks`: a single forward sweep
over the sorted list; while the current block intersects its successor they
are unioned (the loop index steps back one after a merge, so the grown block
is re-compared with its new successor, but never with its predecessor). -/
def mergeGo (cur : Rect) : List Rect → List Rect
  | [] => [cur]
  | y :: ys => if isIntersectB cur y then mergeGo (union cur y) ys else cur :: mergeGo y ys

/-- The final merge pass applied to the whole sorted list. -/
def mergeAdjacent : List Rect → List Rect
  | [] => []
  | x :: xs => mergeGo x xs

/-- `computeLayoutBlocks`: filter invisible boxes, scan-merge in document
order, sort in reading order, then run the single forward merge pass. -/
def computeLayoutBlocks (rects : List Rect) : List Rect :=
  if rects.isEmpty then []
  else mergeAdjacent (sortBlocks (scanBlocks [] none rects))

/-- Weak reading order on blocks: non-decreasing left edges. -/
def leftLe (a b : Rect) : Prop := a.left ≤ b.left

theorem mem_insertBlock {a r : Rect} {l : List Rect} :
    a ∈ insertBlock r l → a = r ∨ a ∈ l := by
  induction l with
  | nil => intro h; simp [insertBlock] at h; exact Or.inl h
  | cons b bs ih =>
    intro h
    by_cases hc : lexLt r b
    · simp [insertBlock, hc] at h
      rcases h with h | h | h
      · exact Or.inl h
      · exact Or.inr (by simp [h])
      · exact Or.inr (by simp [h])
    · simp [insertBlock, hc] at h
      rcases h with h | h
      · exact Or.inr (by simp [h])
      · rcases ih h with h1 | h1
        · exact Or.inl h1
        · exact Or.inr (by simp [h1])

theorem insertBlock_sorted {r : Rect} {l : List Rect}
    (h : l.Sorted leftLe) : (insertBlock r l).Sorted leftLe := by
  induction l with
  | nil => simp [insertBlock]
  | cons b bs ih =>
    rw [List.sorted_cons] at h
    by_cases hc : lexLt r b
    · have hrb : leftLe r b := by
        rcases hc with h1 | h1
        · exact le_of_lt h1
        · exact le_of_eq h1.1
      rw [insertBlock, if_pos hc, List.sorted_cons]
      refine ⟨?_, by rw [List.sorted_cons]; exact h⟩
      intro a ha
      simp at ha
      rcases ha with ha | ha
      · rw [ha]; exact hrb
      · exact le_trans hrb (h.1 a ha)
    · have hbr : leftLe b r := by
        unfold lexLt at hc
        push_neg at hc
        exact hc.1
      rw [insertBlock, if_neg hc, List.sorted_cons]
      refine ⟨?_, ih h.2⟩
      intro a ha
      rcases mem_insertBlock ha with h1 | h1
      · rw [h1]; exact hbr
      · exact h.1 a h1

theorem sortBlocks_sorted (l : List Rect) : (sortBlocks l).Sorted leftLe := by
  suffices h : ∀ acc : List Rect, acc.Sorted leftLe →
      (l.foldl (fun acc r => insertBlock r acc) acc).Sorted leftLe by
    exact h [] (by simp)
  induction l with
  | nil => intro acc hacc; simpa using hacc
  | cons r rs ih => intro acc hacc; exact ih (insertBlock r acc) (insertBlock_sorted hacc)

theorem union_left_of_le {a b : Rect} (h : a.left ≤ b.left) :
    (union a b).left = a.left := by
  simp only [union]
  exact min_eq_left h

theorem sorted_cons_union {cur y : Rect} {ys : List Rect}
    (h : (cur :: y :: ys).Sorted leftLe) : (union cur y :: ys).Sorted leftLe := by
  rw [List.sorted_cons] at h ⊢
  have hcy : leftLe cur y := h.1 y (by simp)
  have hul : (union cur y).left = cur.left := union_left_of_le hcy
  refine ⟨?_, (List.sorted_cons.mp h.2).2⟩
  intro b hb
  have := (List.sorted_cons.mp h.2).1 b hb
  unfold leftLe at this ⊢
  rw [hul]
  exact le_trans hcy this

theorem mergeGo_left_le {y : Rect} {l : List Rect}
    (h : (y :: l).Sorted leftLe) : ∀ z ∈ mergeGo y l, y.left ≤ z.left := by
  induction l generalizing y with
  | nil => intro z hz; simp [mergeGo] at hz; rw [hz]
  | cons t ts ih =>
    intro z hz
    have hyt : leftLe y t := (List.sorted_cons.mp h).1 t (by simp)
    by_cases hc : isIntersectB y t
    · rw [mergeGo, if_pos hc] at hz
      have h2 := ih (sorted_cons_union h) z hz
      rwa [union_left_of_le hyt] at h2
    · rw [mergeGo, if_neg hc] at hz
      simp at hz
      rcases hz with hz | hz
      · rw [hz]
      · exact le_trans hyt (ih (List.sorted_cons.mp h).2 z hz)

theorem mergeGo_sorted {cur : Rect} {l : List Rect}
    (h : (cur :: l).Sorted leftLe) : (mergeGo cur l).Sorted leftLe := by
  induction l generalizing cur with
  | nil => simp [mergeGo]
  | cons y ys ih =>
    by_cases hc : isIntersectB cur y
    · rw [mergeGo, if_pos hc]
      exact ih (sorted_cons_union h)
    · rw [mergeGo, if_neg hc, List.sorted_cons]
      refine ⟨?_, ih (List.sorted_cons.mp h).2⟩
      intro b hb
      have h1 := mergeGo_left_le (List.sorted_cons.mp h).2 b hb
      exact le_trans ((List.sorted_cons.mp h).1 y (by simp)) h1

/-- C2 counterexample: on this five-fragment input the final block list of
`computeLayoutBlocks` contains two (even adjacent) intersecting blocks, and
its reading order is violated (two blocks share left edge 0 but the later
one has the smaller top edge).  The single forward merge pass re-compares a
grown block only with its successor, never with its predecessor, so the
union created by merging the 2nd and 3rd sorted blocks is left intersecting
the 1st.  This refutes the claim that the output is reading-order sorted and
pairwise non-intersecting. -/
theorem C2_blocks_counterexample :
    computeLayoutBlocks
        [⟨0,10,10,15⟩, ⟨100,35,110,40⟩, ⟨0,20,10,30⟩, ⟨200,50,210,55⟩, ⟨5,0,30,25⟩]
      = [⟨0,10,10,15⟩, ⟨0,0,30,30⟩, ⟨100,35,110,40⟩, ⟨200,50,210,55⟩] ∧
    isIntersectB ⟨0,10,10,15⟩ ⟨0,0,30,30⟩ = true ∧
    (Rect.mk 0 10 10 15).left = (Rect.mk 0 0 30 30).left ∧
    (Rect.mk 0 0 30 30).top < (Rect.mk 0 10 10 15).top := by
  refine ⟨?_, by norm_num [isIntersectB], by norm_num, by norm_num⟩
  norm_num [computeLayoutBlocks, scanBlocks, pushBlock, mergeCond, isIntersectB, intersectO,
    union, sortBlocks, insertBlock, lexLt, mergeAdjacent, mergeGo, Rect.width, Rect.height]

/-- C2 (amended): for every input list the block list returned by
`computeLayoutBlocks` is weakly sorted by left edge.  The stronger original
claim — reading-order sorted with the top-edge tie-break and pairwise
non-intersecting — fails (see the counterexample): the final pass merges
blocks in a single forward sweep over adjacent pairs only, so a merged
union may still intersect, and may break the top order against, its
predecessor. -/
theorem C2_blocks_sorted_left_amended (rects : List Rect) :
    (computeLayoutBlocks rects).Sorted leftLe := by
  unfold computeLayoutBlocks
  split
  · simp
  · have h := sortBlocks_sorted (scanBlocks [] none rects)
    cases hs : sortBlocks (scanBlocks [] none rects) with
    | nil => simp [mergeAdjacent]
    | cons x xs =>
      rw [mergeAdjacent]
      exact mergeGo_sorted (hs ▸ h)

/-! ## Position resolver (src/SelectionUtils.ts) -/

/-- Direction bit flags from src/types: `UP = 1, DOWN = 1 << 1,
LEFT = 1 << 2, RIGHT = 1 << 3`. -/
def dirUP : Nat := 1

/-- Downward direction flag (`DOWN = 1 << 1`). -/
def dirDOWN : Nat := 2

/-- Leftward direction flag (`LEFT = 1 << 2`). -/
def dirLEFT : Nat := 4

/-- Rightward direction flag (`RIGHT = 1 << 3`). -/
def dirRIGHT : Nat := 8

/-- A text-layer span: its bounding client rect and the length of its text
content.  `span.firstChild` (the text node) exists iff the text content is
non-empty. -/
structure Frag where
  rect : Rect
  textLen : Nat
deriving Repr, DecidableEq

/-- The DOM node a resolution result points at: the span's text node, the
span element itself (`getSafeResult` on an empty span), or null
(`getResult` on an empty span reads a null `firstChild`). -/
inductive NodeRef where
  | nullNode : NodeRef
  | textOf : Frag → NodeRef
  | elemOf : Frag → NodeRef
deriving Repr, DecidableEq

/-- A resolved selection point: node plus character offset. -/
structure SelResult where
  node : NodeRef
  offset : Nat
deriving Repr, DecidableEq

/-- `getResult(span, atEnd)`: node is `span.firstChild` (null when the span
has no text), offset is the text length when `atEnd`, else 0. -/
def getResult (f : Frag) (atEnd : Bool) : SelResult :=
  { node := if 0 < f.textLen then NodeRef.textOf f else NodeRef.nullNode
    offset := if atEnd then f.textLen else 0 }

/-- `getSafeResult(span, atEnd)`: like `getResult` but returns the span
element at offset 0 when it has no text child. -/
def getSafeResult (f : Frag) (atEnd : Bool) : SelResult :=
  if f.textLen = 0 then { node := NodeRef.elemOf f, offset := 0 }
  else getResult f atEnd

/-- `layoutBlockOf(rect, blocks)`: the first block whose box contains the
given rect, together with its index.  The index models JS reference
equality (`===`) between looked-up blocks: two lookups agree exactly when
they return the same array entry. -/
def layoutBlockOfIdx (r : Rect) : List Rect → Option (Nat × Rect)
  | [] => none
  | b :: bs =>
    if containsB b r then some (0, b)
    else (layoutBlockOfIdx r bs).map (fun p => (p.1 + 1, p.2))

/-- `intersectLayoutBlockOf(rect, blocks)`: the first block intersecting the
given rect. -/
def intersectLayoutBlockOf (r : Rect) : List Rect → Option Rect
  | [] => none
  | b :: bs => if isIntersectB b r then some b else intersectLayoutBlockOf r bs

/-- `layoutBlockOfCoord(x, y, blocks)`: the first block containing the
pointer coordinate. -/
def layoutBlockOfCoord (x y : ℚ) : List Rect → Option Rect
  | [] => none
  | b :: bs => if containsCoord b x y then some b else layoutBlockOfCoord x y bs

/-- Row membership: the strict vertical filter `clientY >= r.top &&
clientY <= r.bottom`. -/
def inRow (y : ℚ) (s : Frag) : Bool :=
  decide (y ≥ s.rect.top) && decide (y ≤ s.rect.bottom)

/-- One step of the stable row sort (comparator `a.left - b.left`): the new
span goes after every span whose left edge is not strictly greater. -/
def insertByLeft (f : Frag) : List Frag → List Frag
  | [] => [f]
  | g :: gs => if f.rect.left < g.rect.left then f :: g :: gs else g :: insertByLeft f gs

/-- The stable sort of the row spans by left edge (JS `sort` is stable). -/
def sortByLeft (l : List Frag) : List Frag :=
  l.foldl (fun acc f => insertByLeft f acc) []

/-- Resolution on a hovered span when the host caret-from-point primitive is
unavailable: the horizontal-midpoint rule `atEnd := clientX > r.left +
r.width/2`. -/
def hoverResult (x : ℚ) (s : Frag) : SelResult :=
  getResult s (decide (x > s.rect.left + s.rect.width / 2))

/-- Outcome of one resolver call: either the thrown `Error` of the source's
gutter invariant check, or a normal (possibly null) result. -/
inductive ResolveOut where
  | thrown : String → ResolveOut
  | result : Option SelResult → ResolveOut
deriving Repr, DecidableEq

/-- The gutter branch of `getPreferredTextNode1` for a pointer strictly
between row neighbours `s` and `t`: first the two selection-rect biased
cases, then the layout-block lookup (throwing when either neighbour is
contained in no block), then the same-block fragment-edge tie-break or the
cross-block block-edge tie-break with the start-and-downward bias. -/
def gutterBlockCase (x : ℚ) (blocks : List Rect) (direction : Nat) (start : Bool)
    (s t : Frag) : ResolveOut :=
  match layoutBlockOfIdx s.rect blocks, layoutBlockOfIdx t.rect blocks with
  | some (i, bi), some (j, bj) =>
    if i = j then
      ResolveOut.result (some
        (if x - s.rect.right ≤ t.rect.left - x then getSafeResult s true
         else getSafeResult t false))
    else
      ResolveOut.result (some
        (if x - bi.right ≤ bj.left - x then
           getSafeResult s (!(start && decide (direction &&& dirDOWN ≠ 0)))
         else getSafeResult t false))
  | _, _ => ResolveOut.thrown "Layout block not found"

/-- The full gutter branch: the two selection-rect biased cases first, then
`gutterBlockCase`. -/
def gutterResult (x : ℚ) (blocks : List Rect) (selRect : Option Rect)
    (mouseBlock : Option Rect) (direction : Nat) (start : Bool)
    (s t : Frag) : ResolveOut :=
  match selRect with
  | some sr =>
    if x > sr.right ∧ x < t.rect.left then
      ResolveOut.result (some
        (if containsO mouseBlock t.rect then getResult t false else getResult s true))
    else if x > s.rect.right ∧ x < sr.left then
      ResolveOut.result (some
        (if containsO mouseBlock s.rect then getResult s true else getResult t false))
    else gutterBlockCase x blocks direction start s t
  | none => gutterBlockCase x blocks direction start s t

/-- The scan of the sorted row spans inside `getPreferredTextNode1`: the
first hovered span resolves with the midpoint rule; otherwise the first
gutter containing the pointer resolves via `gutterResult`; `none` when the
scan falls through to the nearest-fragment fallback. -/
def rowLoop (x : ℚ) (blocks : List Rect) (selRect : Option Rect)
    (mouseBlock : Option Rect) (direction : Nat) (start : Bool) :
    List Frag → Option ResolveOut
  | [] => none
  | [s] =>
    if x ≥ s.rect.left ∧ x ≤ s.rect.right then
      some (ResolveOut.result (some (hoverResult x s)))
    else none
  | s :: t :: rest =>
    if x ≥ s.rect.left ∧ x ≤ s.rect.right then
      some (ResolveOut.result (some (hoverResult x s)))
    else if x > s.rect.right ∧ x < t.rect.left then
      some (gutterResult x blocks selRect mouseBlock direction start s t)
    else rowLoop x blocks selRect mouseBlock direction start (t :: rest)

/-- The weighted squared distance of the nearest-fragment fallback:
`dx = min(|left-x|, |right-x|) * 0.2` and `dy` the distance to the vertical
center (written in the source as the min of two equal center expressions);
distance `dx² + dy²`. -/
def fallbackDist (x y : ℚ) (r : Rect) : ℚ :=
  let dx := min (|r.left - x|) (|r.right - x|) * (1 / 5)
  let dy := min (|r.top + r.height / 2 - y|) (|r.bottom - r.height / 2 - y|)
  dx * dx + dy * dy

/-- One step of the fallback scan: skip spans outside the mouse block (when
there is one) and spans outside both the selection block and the mouse
block; otherwise keep the span when its distance is `≤` the current best
(ties go to the later span, as in the source). -/
def fallbackStep (x y : ℚ) (mouseBlock selBlock : Option Rect)
    (acc : Option (Frag × ℚ)) (s : Frag) : Option (Frag × ℚ) :=
  if mouseBlock.isSome ∧ ¬ containsO mouseBlock s.rect then acc
  else if selBlock.isSome ∧ ¬ containsO selBlock s.rect ∧ ¬ containsO mouseBlock s.rect then acc
  else
    let d := fallbackDist x y s.rect
    match acc with
    | none => some (s, d)
    | some (_, best) => if d ≤ best then some (s, d) else acc

/-- The nearest-fragment fallback at the bottom of `getPreferredTextNode1`:
scan all spans with `fallbackStep`; resolve the winner to its end when the
pointer is right of or below it, else to its start; null when no span
survives the filters. -/
def fallback1 (x y : ℚ) (mouseBlock selBlock : Option Rect)
    (spans : List Frag) : Option SelResult :=
  match spans.foldl (fallbackStep x y mouseBlock selBlock) none with
  | some (s, _) =>
    some (getResult s (decide (x ≥ s.rect.right) || decide (y ≥ s.rect.bottom)))
  | none => none

/-- The left-margin guard of `getPreferredTextNode1`: the pointer is left of
the whole first layout block while the row's first span starts inside it
("selecting along the far left, and the first span is not in a later
column"). -/
def leftMarginCond (x : ℚ) (firstRect : Rect) (blocks : List Rect) : Bool :=
  match blocks with
  | [] => false
  | b0 :: _ => decide (x < b0.left) && decide (firstRect.left < b0.right)

/-- The right-margin guard of `getPreferredTextNode1`, symmetric to
`leftMarginCond` with the last layout block. -/
def rightMarginCond (x : ℚ) (lastRect : Rect) (blocks : List Rect) : Bool :=
  match blocks.getLast? with
  | none => false
  | some bl => decide (x > bl.right) && decide (lastRect.right > bl.left)

/-- The row branch of `getPreferredTextNode1` applied to the sorted row
spans: the two margin cases (falling through to the fallback when their
block-geometry guards fail) and the hover/gutter scan. -/
def resolveRow (x : ℚ) (blocks : List Rect) (selRect mouseBlock : Option Rect)
    (direction : Nat) (start : Bool) : List Frag → Option ResolveOut
  | [] => none
  | f :: rest =>
    let lastF := rest.getLastD f
    if x < f.rect.left then
      if leftMarginCond x f.rect blocks then
        some (ResolveOut.result (some (getResult f false)))
      else if containsO mouseBlock f.rect then
        some (ResolveOut.result (some (getResult f false)))
      else none
    else if x > lastF.rect.right then
      if rightMarginCond x lastF.rect blocks then
        some (ResolveOut.result (some (getResult lastF true)))
      else if containsO mouseBlock lastF.rect then
        some (ResolveOut.result (some (getResult lastF true)))
      else none
    else rowLoop x blocks selRect mouseBlock direction start (f :: rest)

/-- `getSelectNodeBy1` (the sibling module's mirror of
`getPreferredTextNode1`, built on the null-safe DOMRectUtils of
src/src/selection): strict-row resolution with margin handling, gutter
tie-breaks and the nearest-fragment fallback.  `selRect` is the current
host selection's bounding rect (external input); the host caret primitive
is modelled as unavailable.  The margin, gutter and fallback logic is
line-for-line identical in `getPreferredTextNode1`
(src/SelectionUtils.ts); that staged copy differs only in its imported
DOMRectUtils and is modelled separately as `resolve1V`. -/
def resolve1 (x y : ℚ) (spans : List Frag) (layoutBlocks : List Rect)
    (selRect : Option Rect) (direction : Nat) (start : Bool) : ResolveOut :=
  if spans.isEmpty then ResolveOut.result none
  else
    match resolveRow x layoutBlocks selRect (layoutBlockOfCoord x y layoutBlocks)
        direction start (sortByLeft (spans.filter (inRow y))) with
    | some r => r
    | none =>
      ResolveOut.result (fallback1 x y (layoutBlockOfCoord x y layoutBlocks)
        (unionO
          (match selRect with
           | some sr => intersectLayoutBlockOf sr layoutBlocks
           | none => none)
          selRect)
        spans)

theorem length_insertByLeft (f : Frag) (l : List Frag) :
    (insertByLeft f l).length = l.length + 1 := by
  induction l with
  | nil => rfl
  | cons g gs ih =>
    by_cases h : f.rect.left < g.rect.left <;> simp [insertByLeft, h, ih]

theorem length_sortByLeft (l : List Frag) : (sortByLeft l).length = l.length := by
  suffices h : ∀ acc : List Frag,
      (l.foldl (fun acc f => insertByLeft f acc) acc).length = acc.length + l.length by
    simpa using h []
  induction l with
  | nil => intro acc; simp
  | cons f fs ih =>
    intro acc
    rw [List.foldl_cons, ih, length_insertByLeft, List.length_cons]
    omega

theorem mem_insertByLeft {a f : Frag} {l : List Frag} :
    a ∈ insertByLeft f l ↔ a = f ∨ a ∈ l := by
  induction l with
  | nil => simp [insertByLeft]
  | cons g gs ih =>
    by_cases h : f.rect.left < g.rect.left
    · simp only [insertByLeft, if_pos h, List.mem_cons]
    · simp only [insertByLeft, if_neg h, List.mem_cons, ih]
      tauto

theorem mem_sortByLeft {a : Frag} {l : List Frag} : a ∈ sortByLeft l ↔ a ∈ l := by
  suffices h : ∀ acc : List Frag,
      a ∈ l.foldl (fun acc f => insertByLeft f acc) acc ↔ a ∈ acc ∨ a ∈ l by
    simpa using h []
  induction l with
  | nil => intro acc; simp
  | cons f fs ih =>
    intro acc
    rw [List.foldl_cons, ih]
    simp [mem_insertByLeft]
    tauto

/-- The list of definitions a concrete resolver evaluation unfolds. -/
theorem resolve1_cons_eval {x y : ℚ} {spans : List Frag} {blocks : List Rect}
    {selRect : Option Rect} {dir : Nat} {st : Bool} {f : Frag} {rest : List Frag}
    (hne : spans.isEmpty = false)
    (hrow : sortByLeft (spans.filter (inRow y)) = f :: rest) :
    resolve1 x y spans blocks selRect dir st
      = match resolveRow x blocks selRect (layoutBlockOfCoord x y blocks) dir st
            (f :: rest) with
        | some r => r
        | none =>
          ResolveOut.result (fallback1 x y (layoutBlockOfCoord x y blocks)
            (unionO
              (match selRect with
               | some sr => intersectLayoutBlockOf sr blocks
               | none => none)
              selRect)
            spans) := by
  unfold resolve1
  rw [hne, hrow]
  rfl

/-- The resolver on a two-span row whose gutter contains the pointer, with
no active selection: resolution reaches the layout-block tie-break. -/
theorem resolve1_two_span_gutter {x y : ℚ} {spans : List Frag} {blocks : List Rect}
    {dir : Nat} {st : Bool} {L G : Frag}
    (hrow : sortByLeft (spans.filter (inRow y)) = [L, G])
    (hwfL : L.rect.left ≤ L.rect.right) (hwfG : G.rect.left ≤ G.rect.right)
    (hgl : L.rect.right < x) (hgr : x < G.rect.left) :
    resolve1 x y spans blocks none dir st
      = gutterBlockCase x blocks dir st L G := by
  have hne : spans.isEmpty = false := by
    cases spans with
    | nil => simp [sortByLeft, List.foldl] at hrow
    | cons a as => rfl
  rw [resolve1_cons_eval hne hrow, resolveRow]
  simp only [List.getLastD_cons, List.getLastD_nil]
  rw [if_neg (not_lt.mpr (le_trans hwfL (le_of_lt hgl))),
    if_neg (not_lt.mpr (le_trans (le_of_lt hgr) hwfG)), rowLoop,
    if_neg (fun hh => absurd hgl (not_lt.mpr hh.2)), if_pos ⟨hgl, hgr⟩]
  rfl

/-- C7: for two same-row fragments belonging to the same layout block, with
no active selection, the gutter tie-break flips exactly once at the
horizontal midpoint of the facing edges: at or left of the midpoint the
resolver returns the left fragment's end offset, strictly right of it the
right fragment's offset 0. -/
theorem C7_same_block_gutter_midpoint (x y : ℚ) (spans : List Frag)
    (blocks : List Rect) (dir : Nat) (st : Bool) (L G : Frag) (k : Nat) (bk : Rect)
    (hrow : sortByLeft (spans.filter (inRow y)) = [L, G])
    (hwfL : L.rect.left ≤ L.rect.right) (hwfG : G.rect.left ≤ G.rect.right)
    (hgl : L.rect.right < x) (hgr : x < G.rect.left)
    (hLB : layoutBlockOfIdx L.rect blocks = some (k, bk))
    (hGB : layoutBlockOfIdx G.rect blocks = some (k, bk))
    (htL : 0 < L.textLen) (htG : 0 < G.textLen) :
    resolve1 x y spans blocks none dir st
      = ResolveOut.result (some
          (if x ≤ (L.rect.right + G.rect.left) / 2 then
             ⟨NodeRef.textOf L, L.textLen⟩
           else ⟨NodeRef.textOf G, 0⟩)) := by
  rw [resolve1_two_span_gutter hrow hwfL hwfG hgl hgr, gutterBlockCase, hLB, hGB]
  have hiff : (x - L.rect.right ≤ G.rect.left - x) ↔ (x ≤ (L.rect.right + G.rect.left) / 2) := by
    constructor <;> intro h <;> linarith
  have hL : getSafeResult L true = ⟨NodeRef.textOf L, L.textLen⟩ := by
    rw [getSafeResult, if_neg (Nat.pos_iff_ne_zero.mp htL), getResult]
    simp [htL]
  have hG : getSafeResult G false = ⟨NodeRef.textOf G, 0⟩ := by
    rw [getSafeResult, if_neg (Nat.pos_iff_ne_zero.mp htG), getResult]
    simp [htG]
  simp [hiff, hL, hG]

/-- Witness for C7 at a concrete same-block two-fragment row, pointer at the
exact midpoint of the gutter (resolving to the left fragment's end). -/
theorem C7_same_block_gutter_midpoint_witness :
    resolve1 52 5 [⟨⟨0,0,50,10⟩, 5⟩, ⟨⟨54,0,100,10⟩, 7⟩] [⟨0,0,100,10⟩] none 0 false
      = ResolveOut.result (some ⟨NodeRef.textOf ⟨⟨0,0,50,10⟩, 5⟩, 5⟩) := by
  have h := C7_same_block_gutter_midpoint 52 5
    [⟨⟨0,0,50,10⟩, 5⟩, ⟨⟨54,0,100,10⟩, 7⟩] [⟨0,0,100,10⟩] 0 false
    ⟨⟨0,0,50,10⟩, 5⟩ ⟨⟨54,0,100,10⟩, 7⟩ 0 ⟨0,0,100,10⟩
    (by norm_num [sortByLeft, insertByLeft, inRow, List.filter])
    (by norm_num) (by norm_num) (by norm_num) (by norm_num)
    (by norm_num [layoutBlockOfIdx, containsB])
    (by norm_num [layoutBlockOfIdx, containsB])
    (by norm_num) (by norm_num)
  rw [h, if_pos (by norm_num)]

/-- C4 (amended): at a cross-block gutter, when the tie-break chooses the
earlier fragment, the resolver returns that fragment's START (offset 0)
precisely when this is the first resolution of the drag and the direction
bitmask has the downward bit set; in every other case it returns the
fragment's end offset.  (The original claim had it reversed.) -/
theorem C4_cross_block_gutter_amended (x y : ℚ) (spans : List Frag)
    (blocks : List Rect) (dir : Nat) (st : Bool) (L G : Frag) (i j : Nat)
    (bi bj : Rect)
    (hrow : sortByLeft (spans.filter (inRow y)) = [L, G])
    (hwfL : L.rect.left ≤ L.rect.right) (hwfG : G.rect.left ≤ G.rect.right)
    (hgl : L.rect.right < x) (hgr : x < G.rect.left)
    (hLB : layoutBlockOfIdx L.rect blocks = some (i, bi))
    (hGB : layoutBlockOfIdx G.rect blocks = some (j, bj))
    (hij : i ≠ j)
    (hdist : x - bi.right ≤ bj.left - x)
    (htL : 0 < L.textLen) :
    resolve1 x y spans blocks none dir st
      = ResolveOut.result (some ⟨NodeRef.textOf L,
          if st = true ∧ dir &&& dirDOWN ≠ 0 then 0 else L.textLen⟩) := by
  rw [resolve1_two_span_gutter hrow hwfL hwfG hgl hgr, gutterBlockCase, hLB, hGB]
  simp only [if_neg hij, if_pos hdist]
  rw [getSafeResult, if_neg (Nat.pos_iff_ne_zero.mp htL), getResult]
  simp only [if_pos htL]
  by_cases hsd : st = true ∧ dir &&& dirDOWN ≠ 0
  · rw [if_pos hsd]
    have : (!(st && decide (dir &&& dirDOWN ≠ 0))) = false := by
      rw [hsd.1]
      simp [hsd.2]
    rw [this]
    simp
  · rw [if_neg hsd]
    have hb2 : (st && decide (dir &&& dirDOWN ≠ 0)) = false := by
      cases hst : st
      · simp
      · have hd : ¬ dir &&& dirDOWN ≠ 0 := fun hd => hsd ⟨hst, hd⟩
        simp [hd]
    rw [hb2]
    simp

/-- Witness for C4 (amended) at a concrete cross-block gutter with
`start = true` and the downward bit set: the chosen earlier fragment is
resolved at offset 0. -/
theorem C4_cross_block_gutter_amended_witness :
    resolve1 245 5 [⟨⟨0,0,200,10⟩, 4⟩, ⟨⟨300,0,500,10⟩, 6⟩]
        [⟨0,0,200,10⟩, ⟨300,0,500,10⟩] none 2 true
      = ResolveOut.result (some ⟨NodeRef.textOf ⟨⟨0,0,200,10⟩, 4⟩, 0⟩) := by
  have h := C4_cross_block_gutter_amended 245 5
    [⟨⟨0,0,200,10⟩, 4⟩, ⟨⟨300,0,500,10⟩, 6⟩] [⟨0,0,200,10⟩, ⟨300,0,500,10⟩]
    2 true ⟨⟨0,0,200,10⟩, 4⟩ ⟨⟨300,0,500,10⟩, 6⟩ 0 1 ⟨0,0,200,10⟩ ⟨300,0,500,10⟩
    (by norm_num [sortByLeft, insertByLeft, inRow, List.filter])
    (by norm_num) (by norm_num) (by norm_num) (by norm_num)
    (by norm_num [layoutBlockOfIdx, containsB])
    (by norm_num [layoutBlockOfIdx, containsB])
    (by norm_num) (by norm_num) (by norm_num)
  rw [h, if_pos ⟨rfl, by decide⟩]

/-- C4 counterexample: a concrete cross-block gutter, first resolution of
the drag, downward bit set, tie-break choosing the earlier (left) fragment —
the claim says the resolved offset is the fragment's end offset (4), but
the code resolves to offset 0. -/
theorem C4_cross_block_gutter_counterexample :
    resolve1 245 5 [⟨⟨0,0,200,10⟩, 4⟩, ⟨⟨300,0,500,10⟩, 6⟩]
        [⟨0,0,200,10⟩, ⟨300,0,500,10⟩] none dirDOWN true
      = ResolveOut.result (some ⟨NodeRef.textOf ⟨⟨0,0,200,10⟩, 4⟩, 0⟩) ∧
    (⟨NodeRef.textOf ⟨⟨0,0,200,10⟩, 4⟩, 0⟩ : SelResult)
      ≠ ⟨NodeRef.textOf ⟨⟨0,0,200,10⟩, 4⟩, (4 : Nat)⟩ := by
  have hD : decide ((2 : Nat) &&& 2 ≠ 0) = true := by decide
  constructor
  · norm_num [resolve1, resolveRow, rowLoop, gutterResult, gutterBlockCase, sortByLeft,
      insertByLeft, inRow, layoutBlockOfCoord, layoutBlockOfIdx, containsCoord, containsB,
      leftMarginCond, rightMarginCond, containsO, List.getLastD, getSafeResult, getResult,
      dirDOWN, hD]
  · simp

/-- C5 (amended): a pointer horizontally outside a non-empty row resolves to
the boundary fragment's boundary offset only under the block-geometry
guards of the source (pointer beyond the first/last layout block, or the
block under the pointer contains the boundary fragment); when the guards
fail, resolution falls through to the nearest-fragment fallback, which can
return a different offset. -/
theorem C5_row_margin_amended (x y : ℚ) (spans : List Frag) (blocks : List Rect)
    (selRect : Option Rect) (dir : Nat) (st : Bool) (f : Frag) (rest : List Frag)
    (hrow : sortByLeft (spans.filter (inRow y)) = f :: rest) :
    ((x < f.rect.left ∧
      (leftMarginCond x f.rect blocks = true ∨
       containsO (layoutBlockOfCoord x y blocks) f.rect = true) ∧
      0 < f.textLen) →
      resolve1 x y spans blocks selRect dir st
        = ResolveOut.result (some ⟨NodeRef.textOf f, 0⟩)) ∧
    (((rest.getLastD f).rect.right < x ∧
      f.rect.left ≤ (rest.getLastD f).rect.right ∧
      (rightMarginCond x (rest.getLastD f).rect blocks = true ∨
       containsO (layoutBlockOfCoord x y blocks) (rest.getLastD f).rect = true) ∧
      0 < (rest.getLastD f).textLen) →
      resolve1 x y spans blocks selRect dir st
        = ResolveOut.result (some ⟨NodeRef.textOf (rest.getLastD f),
            (rest.getLastD f).textLen⟩)) := by
  have hne : spans.isEmpty = false := by
    cases spans with
    | nil => simp [sortByLeft, List.foldl] at hrow
    | cons a as => rfl
  constructor
  · rintro ⟨hxf, hguard, htf⟩
    rw [resolve1_cons_eval hne hrow, resolveRow]
    rw [if_pos hxf]
    have hres : getResult f false = ⟨NodeRef.textOf f, 0⟩ := by
      rw [getResult]
      simp [htf]
    rcases hguard with hg | hg
    · rw [if_pos hg, hres]
    · by_cases hg1 : leftMarginCond x f.rect blocks = true
      · rw [if_pos hg1, hres]
      · rw [if_neg hg1, if_pos hg, hres]
  · rintro ⟨hxl, hfl, hguard, htl⟩
    rw [resolve1_cons_eval hne hrow, resolveRow]
    rw [if_neg (not_lt.mpr (le_trans hfl (le_of_lt hxl))), if_pos hxl]
    have hres : getResult (rest.getLastD f) true
        = ⟨NodeRef.textOf (rest.getLastD f), (rest.getLastD f).textLen⟩ := by
      rw [getResult, if_pos htl]
      simp
    rcases hguard with hg | hg
    · rw [if_pos hg, hres]
    · by_cases hg1 : rightMarginCond x (rest.getLastD f).rect blocks = true
      · rw [if_pos hg1, hres]
      · rw [if_neg hg1, if_pos hg, hres]

/-- Witness for C5 (amended): a single-fragment row with the pointer in the
left margin and the left-margin guard satisfied resolves to offset 0 of
that fragment. -/
theorem C5_row_margin_amended_witness :
    resolve1 50 5 [⟨⟨100,0,200,10⟩, 8⟩] [⟨100,0,200,10⟩] none 0 false
      = ResolveOut.result (some ⟨NodeRef.textOf ⟨⟨100,0,200,10⟩, 8⟩, 0⟩) := by
  refine (C5_row_margin_amended 50 5 [⟨⟨100,0,200,10⟩, 8⟩] [⟨100,0,200,10⟩] none 0 false
    ⟨⟨100,0,200,10⟩, 8⟩ []
    (by norm_num [sortByLeft, insertByLeft, inRow, List.filter])).1
    ⟨by norm_num, Or.inl (by norm_num [leftMarginCond]), by norm_num⟩

/-- C5 counterexample: a two-column page where the pointer sits at the
bottom edge of the right column's row, left of that row's only fragment.
Both margin guards fail (the pointer is inside no block and is right of the
first block's left edge), so resolution falls through to the
nearest-fragment fallback, which returns the END offset (8) of the row's
leftmost fragment — not offset 0 as the claim requires. -/
theorem C5_row_margin_counterexample :
    resolve1 50 10 [⟨⟨0,100,40,110⟩, 6⟩, ⟨⟨100,0,200,10⟩, 8⟩]
        [⟨0,100,40,110⟩, ⟨100,0,200,10⟩] none 0 false
      = ResolveOut.result (some ⟨NodeRef.textOf ⟨⟨100,0,200,10⟩, 8⟩, 8⟩) ∧
    (⟨NodeRef.textOf ⟨⟨100,0,200,10⟩, 8⟩, 8⟩ : SelResult)
      ≠ ⟨NodeRef.textOf ⟨⟨100,0,200,10⟩, 8⟩, 0⟩ := by
  constructor
  · norm_num [resolve1, resolveRow, rowLoop, gutterResult, gutterBlockCase, sortByLeft,
      insertByLeft, inRow, layoutBlockOfCoord, layoutBlockOfIdx, containsCoord, containsB,
      leftMarginCond, rightMarginCond, containsO, List.getLastD, getSafeResult, getResult,
      fallback1, fallbackStep, fallbackDist, unionO, intersectLayoutBlockOf,
      Rect.width, Rect.height]
  · decide

/-! ## The block-constrained resolver pipeline (getPreferredTextNode) -/

/-- `getClosestTextNodeOfSpans`: nearest span by the weighted squared
distance (ties to the later span), rejected when the pointer is beyond the
span against the drag direction; resolves to the end when the pointer is
below the span, or right of it unless this is the first resolution of a
downward drag. -/
def closestOfSpans (x y : ℚ) (spans : List Frag) (st : Bool) (dir : Nat) :
    Option SelResult :=
  match spans with
  | [] => none
  | s0 :: rest =>
    let best := rest.foldl (fun (b : Frag × ℚ) s =>
      let d := fallbackDist x y s.rect
      if d ≤ b.2 then (s, d) else b) (s0, fallbackDist x y s0.rect)
    let span := best.1
    if x < span.rect.left ∧ dir &&& dirLEFT ≠ 0 then none
    else if x > span.rect.right ∧ dir &&& dirRIGHT ≠ 0 then none
    else some (getResult span
      (decide (y ≥ span.rect.bottom) ||
       (decide (x ≥ span.rect.right) && !(st && decide (dir &&& dirDOWN ≠ 0)))))

/-- The hover/gutter scan of `getPreferredTextNodeOfSpans` (host caret
primitive unavailable, so a hover resolves by the midpoint rule); `none`
when the scan falls off the end of the row (the source returns undefined). -/
def ofSpansLoop (x : ℚ) : List Frag → Option SelResult
  | [] => none
  | [s] =>
    if x ≥ s.rect.left ∧ x ≤ s.rect.right then some (hoverResult x s) else none
  | s :: t :: rest =>
    if x ≥ s.rect.left ∧ x ≤ s.rect.right then some (hoverResult x s)
    else if x > s.rect.right ∧ x < t.rect.left then
      some (if x - s.rect.right ≤ t.rect.left - x then getSafeResult s true
            else getSafeResult t false)
    else ofSpansLoop x (t :: rest)

/-- `getPreferredTextNodeOfSpans`: strict-row filter, then the left/right
margins resolve unconditionally to the row's boundary fragments, otherwise
the hover/gutter scan; with no row, the nearest-span search. -/
def preferredOfSpans (x y : ℚ) (spans : List Frag) (st : Bool) (dir : Nat) :
    Option SelResult :=
  if spans.isEmpty then none
  else
    match sortByLeft (spans.filter (inRow y)) with
    | [] => closestOfSpans x y spans st dir
    | f :: rest =>
      if x < f.rect.left then some (getResult f false)
      else if x > (rest.getLastD f).rect.right then some (getResult (rest.getLastD f) true)
      else ofSpansLoop x (f :: rest)

/-- The `if (result && result.node) return result` guard of
`getPreferredTextNode`: a result whose node is null is discarded. -/
def keepIfNode : Option SelResult → Option SelResult
  | none => none
  | some r => if r.node = NodeRef.nullNode then none else some r

theorem textOf_eq_null_iff (f : Frag) :
    (NodeRef.textOf f = NodeRef.nullNode) ↔ False :=
  ⟨fun h => NodeRef.noConfusion h, False.elim⟩

/-- `getPreferredTextNode` (src/SelectionUtils.ts): resolve within the spans
of the block under the pointer, then within the spans of the selection's
block, then over all spans with the nearest-span search. -/
def preferred (x y : ℚ) (spans : List Frag) (blocks : List Rect)
    (selRect : Option Rect) (st : Bool) (dir : Nat) : Option SelResult :=
  if spans.isEmpty then none
  else
    match keepIfNode
        (match layoutBlockOfCoord x y blocks with
         | some mb => preferredOfSpans x y (spans.filter (fun s => containsB mb s.rect)) st dir
         | none => none) with
    | some r => some r
    | none =>
      match keepIfNode
          (match selRect with
           | some sr =>
             preferredOfSpans x y
               (spans.filter (fun s =>
                 containsO (unionO (intersectLayoutBlockOf sr blocks) (some sr)) s.rect))
               st dir
           | none => none) with
      | some r => some r
      | none => closestOfSpans x y spans st dir

/-- Weak order on spans by left edge (the row sort's comparator). -/
def fragLe (a b : Frag) : Prop := a.rect.left ≤ b.rect.left

theorem insertByLeft_sorted {f : Frag} {l : List Frag}
    (h : l.Sorted fragLe) : (insertByLeft f l).Sorted fragLe := by
  induction l with
  | nil => simp [insertByLeft]
  | cons g gs ih =>
    rw [List.sorted_cons] at h
    by_cases hc : f.rect.left < g.rect.left
    · rw [insertByLeft, if_pos hc, List.sorted_cons]
      refine ⟨?_, by rw [List.sorted_cons]; exact h⟩
      intro a ha
      simp at ha
      rcases ha with ha | ha
      · rw [ha]; exact le_of_lt hc
      · exact le_trans (le_of_lt hc) (h.1 a ha)
    · rw [insertByLeft, if_neg hc, List.sorted_cons]
      refine ⟨?_, ih h.2⟩
      intro a ha
      rcases mem_insertByLeft.mp ha with h1 | h1
      · rw [h1]; exact le_of_not_lt hc
      · exact h.1 a h1

theorem sortByLeft_sorted (l : List Frag) : (sortByLeft l).Sorted fragLe := by
  suffices h : ∀ acc : List Frag, acc.Sorted fragLe →
      (l.foldl (fun acc f => insertByLeft f acc) acc).Sorted fragLe by
    exact h [] (by simp)
  induction l with
  | nil => intro acc hacc; simpa using hacc
  | cons f fs ih => intro acc hacc; exact ih (insertByLeft f acc) (insertByLeft_sorted hacc)

theorem sorted_head_le {f : Frag} {rest : List Frag}
    (h : (f :: rest).Sorted fragLe) : ∀ a ∈ f :: rest, f.rect.left ≤ a.rect.left := by
  intro a ha
  rcases List.mem_cons.mp ha with ha | ha
  · rw [ha]
  · exact (List.sorted_cons.mp h).1 a ha

theorem getLastD_mem (f : Frag) (rest : List Frag) : rest.getLastD f ∈ f :: rest := by
  induction rest generalizing f with
  | nil => simp [List.getLastD]
  | cons g gs ih =>
    rw [List.getLastD_cons]
    rcases List.mem_cons.mp (ih g) with h | h
    · rw [h]; exact List.mem_cons_of_mem f (List.mem_cons_self g gs)
    · exact List.mem_cons_of_mem f (List.mem_cons_of_mem g h)

theorem sorted_le_getLastD {f : Frag} {rest : List Frag}
    (h : (f :: rest).Sorted fragLe) :
    ∀ a ∈ f :: rest, a.rect.left ≤ (rest.getLastD f).rect.left := by
  induction rest generalizing f with
  | nil => intro a ha; simp at ha; simp [List.getLastD, ha]
  | cons g gs ih =>
    intro a ha
    rw [List.getLastD_cons]
    rcases List.mem_cons.mp ha with ha | ha
    · calc a.rect.left ≤ g.rect.left := by
            rw [ha]; exact (List.sorted_cons.mp h).1 g (by simp)
        _ ≤ (gs.getLastD g).rect.left := ih (List.sorted_cons.mp h).2 g (by simp)
    · exact ih (List.sorted_cons.mp h).2 a ha

/-- The hover/gutter scan hits the unique pointer-containing span when every
other row span is horizontally disjoint from it. -/
theorem ofSpansLoop_hover {x : ℚ} {l : List Frag} {F : Frag}
    (hsort : l.Sorted fragLe) (hmem : F ∈ l)
    (hwf : ∀ s ∈ l, s.rect.left ≤ s.rect.right)
    (hxl : F.rect.left < x) (hxr : x < F.rect.right)
    (hdisj : ∀ s ∈ l, s ≠ F → s.rect.right < F.rect.left ∨ F.rect.right < s.rect.left) :
    ofSpansLoop x l = some (hoverResult x F) := by
  induction l with
  | nil => simp at hmem
  | cons s tail ih =>
    by_cases hsF : s = F
    · subst hsF
      cases tail with
      | nil => rw [ofSpansLoop, if_pos ⟨le_of_lt hxl, le_of_lt hxr⟩]
      | cons t rest => rw [ofSpansLoop, if_pos ⟨le_of_lt hxl, le_of_lt hxr⟩]
    · have hFtail : F ∈ tail := by
        rcases List.mem_cons.mp hmem with h | h
        · exact absurd h.symm hsF
        · exact h
      have hsleft : s.rect.right < F.rect.left := by
        rcases hdisj s (by simp) hsF with h | h
        · exact h
        · exfalso
          have h1 : s.rect.left ≤ F.rect.left := sorted_head_le hsort F hmem
          have h2 : F.rect.left < F.rect.right := lt_trans hxl hxr
          linarith
      have hnohover : ¬ (x ≥ s.rect.left ∧ x ≤ s.rect.right) := by
        rintro ⟨h1, h2⟩
        linarith
      cases tail with
      | nil => simp at hFtail
      | cons t rest =>
        rw [ofSpansLoop, if_neg hnohover]
        have hnogut : ¬ (x > s.rect.right ∧ x < t.rect.left) := by
          rintro ⟨h1, h2⟩
          by_cases htF : t = F
          · rw [htF] at h2; linarith
          · rcases hdisj t (by simp) htF with h3 | h3
            · have h4 := hwf t (by simp)
              linarith
            · have h5 : t.rect.left ≤ F.rect.left :=
                sorted_head_le (List.sorted_cons.mp hsort).2 F hFtail
              linarith
        rw [if_neg hnogut]
        exact ih (List.sorted_cons.mp hsort).2 hFtail
          (fun a ha => hwf a (List.mem_cons_of_mem s ha))
          (fun a ha => hdisj a (List.mem_cons_of_mem s ha))

/-- Evaluation of `preferredOfSpans` on a non-empty sorted row. -/
theorem preferredOfSpans_cons_eval {x y : ℚ} {spans : List Frag} {st : Bool}
    {dir : Nat} {f : Frag} {rest : List Frag}
    (hne : spans.isEmpty = false)
    (hrow : sortByLeft (spans.filter (inRow y)) = f :: rest) :
    preferredOfSpans x y spans st dir
      = (if x < f.rect.left then some (getResult f false)
         else if x > (rest.getLastD f).rect.right then
           some (getResult (rest.getLastD f) true)
         else ofSpansLoop x (f :: rest)) := by
  unfold preferredOfSpans
  rw [hne, hrow]
  rfl

/-- C6 (amended): when the host caret-from-point primitive is unavailable
and the pointer is strictly inside a fragment's box while every other
same-row candidate fragment is horizontally disjoint from that box, the
candidate-set resolver returns that same fragment, with offset 0 when the
pointer is at or left of the box's horizontal center and the end offset
when it is strictly right of it. -/
theorem C6_direct_hit_amended (x y : ℚ) (spans : List Frag) (st : Bool)
    (dir : Nat) (F : Frag)
    (hmem : F ∈ spans)
    (hwf : ∀ s ∈ spans, s.rect.left ≤ s.rect.right)
    (hxl : F.rect.left < x) (hxr : x < F.rect.right)
    (hyt : F.rect.top < y) (hyb : y < F.rect.bottom)
    (hdisj : ∀ s ∈ spans, s ≠ F → inRow y s = true →
      s.rect.right < F.rect.left ∨ F.rect.right < s.rect.left) :
    preferredOfSpans x y spans st dir
      = some (getResult F (decide (x > F.rect.left + F.rect.width / 2))) := by
  have hne : spans.isEmpty = false := by
    cases spans with
    | nil => simp at hmem
    | cons a as => rfl
  have hrowF : inRow y F = true := by
    simp [inRow]
    exact ⟨le_of_lt hyt, le_of_lt hyb⟩
  have hFrs : F ∈ sortByLeft (spans.filter (inRow y)) := by
    rw [mem_sortByLeft, List.mem_filter]
    exact ⟨hmem, hrowF⟩
  have hsort := sortByLeft_sorted (spans.filter (inRow y))
  have hwfrs : ∀ s ∈ sortByLeft (spans.filter (inRow y)), s.rect.left ≤ s.rect.right :=
    fun s hs => hwf s (List.mem_filter.mp (mem_sortByLeft.mp hs)).1
  have hdisjrs : ∀ s ∈ sortByLeft (spans.filter (inRow y)), s ≠ F →
      s.rect.right < F.rect.left ∨ F.rect.right < s.rect.left := by
    intro s hs hsne
    have h1 := List.mem_filter.mp (mem_sortByLeft.mp hs)
    exact hdisj s h1.1 hsne h1.2
  cases hrs : sortByLeft (spans.filter (inRow y)) with
  | nil => rw [hrs] at hFrs; simp at hFrs
  | cons f rest =>
    rw [hrs] at hFrs hsort hwfrs hdisjrs
    have hnotleft : ¬ (x < f.rect.left) := by
      by_cases hfF : f = F
      · rw [hfF]; exact not_lt.mpr (le_of_lt hxl)
      · rcases hdisjrs f (by simp) hfF with h1 | h1
        · have h2 := hwfrs f (by simp)
          intro h3
          linarith
        · exfalso
          have h2 : f.rect.left ≤ F.rect.left := sorted_head_le hsort F hFrs
          have h3 : F.rect.left < F.rect.right := lt_trans hxl hxr
          linarith
    have hnotright : ¬ (x > (rest.getLastD f).rect.right) := by
      by_cases hlF : rest.getLastD f = F
      · rw [hlF]; exact not_lt.mpr (le_of_lt hxr)
      · rcases hdisjrs (rest.getLastD f) (getLastD_mem f rest) hlF with h1 | h1
        · exfalso
          have h2 : F.rect.left ≤ (rest.getLastD f).rect.left :=
            sorted_le_getLastD hsort F hFrs
          have h3 := hwfrs (rest.getLastD f) (getLastD_mem f rest)
          have h4 : F.rect.left < F.rect.right := lt_trans hxl hxr
          linarith
        · have h2 := hwfrs (rest.getLastD f) (getLastD_mem f rest)
          intro h3
          linarith
    rw [preferredOfSpans_cons_eval hne hrs, if_neg hnotleft, if_neg hnotright]
    exact ofSpansLoop_hover hsort hFrs hwfrs hxl hxr
      (fun a ha hane => hdisjrs a ha hane)

/-- Witness for C6 (amended): a lone fragment, pointer strictly inside and
left of the horizontal center, resolves to that fragment at offset 0. -/
theorem C6_direct_hit_amended_witness :
    preferredOfSpans 30 5 [⟨⟨0,0,100,10⟩, 5⟩] false 0
      = some ⟨NodeRef.textOf ⟨⟨0,0,100,10⟩, 5⟩, 0⟩ := by
  have h := C6_direct_hit_amended 30 5 [⟨⟨0,0,100,10⟩, 5⟩] false 0
    ⟨⟨0,0,100,10⟩, 5⟩ (by simp) (by intro s hs; simp at hs; rw [hs]; norm_num)
    (by norm_num) (by norm_num) (by norm_num) (by norm_num)
    (by intro s hs hne; simp at hs; exact absurd hs hne)
  rw [h, getResult]
  norm_num [Rect.width]

/-- C6 counterexample: three concrete refutations of the direct-hit claim.
(a) Two fragments with the same non-zero-area box: the pointer is strictly
inside the second fragment's box but resolution returns the first.
(b) A thin same-row fragment whose box does not contain the pointer, placed
right of the hit fragment's interior: the right-margin rule fires first and
resolution returns the thin fragment, not the fragment strictly containing
the pointer.  (c) The midpoint rule at the exact horizontal center: the
claim says the end offset, the code returns offset 0. -/
theorem C6_direct_hit_counterexample :
    (preferred 50 5 [⟨⟨0,0,100,10⟩, 5⟩, ⟨⟨0,0,100,10⟩, 7⟩] [⟨0,0,100,10⟩] none false 0
        = some ⟨NodeRef.textOf ⟨⟨0,0,100,10⟩, 5⟩, 0⟩ ∧
      (⟨⟨0,0,100,10⟩, 5⟩ : Frag) ≠ ⟨⟨0,0,100,10⟩, 7⟩) ∧
    (preferred 80 5 [⟨⟨0,0,100,10⟩, 5⟩, ⟨⟨60,0,70,10⟩, 3⟩] [⟨0,0,100,10⟩] none false 0
        = some ⟨NodeRef.textOf ⟨⟨60,0,70,10⟩, 3⟩, 3⟩ ∧
      (⟨⟨60,0,70,10⟩, 3⟩ : Frag) ≠ ⟨⟨0,0,100,10⟩, 5⟩) ∧
    (preferred 50 5 [⟨⟨0,0,100,10⟩, 5⟩] [⟨0,0,100,10⟩] none false 0
        = some ⟨NodeRef.textOf ⟨⟨0,0,100,10⟩, 5⟩, 0⟩ ∧
      (0 : Nat) ≠ 5) := by
  refine ⟨⟨?_, by decide⟩, ⟨?_, by decide⟩, ⟨?_, by decide⟩⟩ <;>
    norm_num [preferred, preferredOfSpans, ofSpansLoop, closestOfSpans, keepIfNode,
      sortByLeft, insertByLeft, inRow, layoutBlockOfCoord, containsCoord, containsB,
      containsO, unionO, intersectLayoutBlockOf, isIntersectB, List.getLastD,
      hoverResult, getResult, getSafeResult, fallbackDist, Rect.width, Rect.height,
      List.filter, textOf_eq_null_iff]

/-! ## Word-boundary expansion (selectWordAtNode) -/

/-- The character classifier of `selectWordAtNode`: the regex
`/[\p{L}\p{N}_]/u` (letter, digit or underscore), modelled on the ASCII
range. -/
def isWordChar (c : Char) : Bool := c.isAlpha || c.isDigit || c == '_'

/-- The class of the character at index `i` of the text (every access the
source makes is in bounds; out-of-range defaults to a space, a non-word
character). -/
def cls (text : List Char) (i : Nat) : Bool := isWordChar (text.getD i ' ')

/-- The anchor clamp of `selectWordAtNode`:
`if (anchor >= len && anchor > 0) anchor = len - 1; if (anchor < 0)
anchor = 0`. -/
def clampAnchor (len : Nat) (offset : Int) : Nat :=
  let a1 : Int := if offset ≥ (len : Int) ∧ offset > 0 then (len : Int) - 1 else offset
  (if a1 < 0 then 0 else a1).toNat

/-- The backward scan of `selectWordAtNode`:
`while (start > 0 && isWordChar(text[start - 1]) === type) start--`. -/
def scanBack (c : Nat → Bool) (ty : Bool) : Nat → Nat
  | 0 => 0
  | n + 1 => if c n = ty then scanBack c ty n else n + 1

/-- The forward scan of `selectWordAtNode` with explicit fuel (`len - e`
steps always suffice):
`while (end < len && isWordChar(text[end]) === type) end++`. -/
def scanFwdAux (c : Nat → Bool) (ty : Bool) (len : Nat) : Nat → Nat → Nat
  | 0, e => e
  | fuel + 1, e => if e < len ∧ c e = ty then scanFwdAux c ty len fuel (e + 1) else e

/-- `selectWordAtNode` restricted to its text-node core (the element-node
normalization of the source only locates the text node to operate on): clamp
the anchor into the text, classify the anchor character, scan backward and
forward to the word boundaries.  `none` for empty text (the source returns
without selecting anything). -/
def selectWord (text : List Char) (offset : Int) : Option (Nat × Nat) :=
  if text.isEmpty then none
  else
    some (scanBack (cls text) (cls text (clampAnchor text.length offset))
            (clampAnchor text.length offset),
          scanFwdAux (cls text) (cls text (clampAnchor text.length offset))
            text.length (text.length - (clampAnchor text.length offset + 1))
            (clampAnchor text.length offset + 1))

theorem clampAnchor_lt {len : Nat} (h : 0 < len) (off : Int) :
    clampAnchor len off < len := by
  simp only [clampAnchor]
  split <;> (try split) <;> omega

theorem clampAnchor_neg {len : Nat} {off : Int} (h : off < 0) :
    clampAnchor len off = 0 := by
  simp only [clampAnchor]
  split <;> (try split) <;> omega

theorem clampAnchor_big {len : Nat} {off : Int} (h0 : 0 < len)
    (h : (len : Int) ≤ off) : clampAnchor len off = len - 1 := by
  simp only [clampAnchor]
  split <;> (try split) <;> omega

theorem scanBack_le (c : Nat → Bool) (ty : Bool) : ∀ n, scanBack c ty n ≤ n := by
  intro n
  induction n with
  | zero => simp [scanBack]
  | succ m ih =>
    rw [scanBack]
    split
    · exact le_trans ih (Nat.le_succ m)
    · exact le_refl _

theorem scanBack_cls (c : Nat → Bool) (ty : Bool) :
    ∀ n i, scanBack c ty n ≤ i → i < n → c i = ty := by
  intro n
  induction n with
  | zero => intro i h1 h2; omega
  | succ m ih =>
    intro i h1 h2
    rw [scanBack] at h1
    by_cases hc : c m = ty
    · rw [if_pos hc] at h1
      rcases Nat.lt_succ_iff_lt_or_eq.mp h2 with h3 | h3
      · exact ih i h1 h3
      · rw [h3]; exact hc
    · rw [if_neg hc] at h1
      omega

theorem scanBack_boundary (c : Nat → Bool) (ty : Bool) :
    ∀ n, 0 < scanBack c ty n → c (scanBack c ty n - 1) ≠ ty := by
  intro n
  induction n with
  | zero => intro h; simp [scanBack] at h
  | succ m ih =>
    intro h
    rw [scanBack] at h ⊢
    by_cases hc : c m = ty
    · rw [if_pos hc] at h ⊢
      exact ih h
    · rw [if_neg hc] at h ⊢
      simpa using hc

theorem scanFwdAux_ge (c : Nat → Bool) (ty : Bool) (len : Nat) :
    ∀ fuel e, e ≤ scanFwdAux c ty len fuel e := by
  intro fuel
  induction fuel with
  | zero => intro e; simp [scanFwdAux]
  | succ m ih =>
    intro e
    rw [scanFwdAux]
    split
    · exact le_trans (Nat.le_succ e) (ih (e + 1))
    · exact le_refl _

theorem scanFwdAux_le (c : Nat → Bool) (ty : Bool) (len : Nat) :
    ∀ fuel e, e ≤ len → scanFwdAux c ty len fuel e ≤ len := by
  intro fuel
  induction fuel with
  | zero => intro e h; simpa [scanFwdAux] using h
  | succ m ih =>
    intro e h
    rw [scanFwdAux]
    split
    · next hcond => exact ih (e + 1) hcond.1
    · exact h

theorem scanFwdAux_cls (c : Nat → Bool) (ty : Bool) (len : Nat) :
    ∀ fuel e i, e ≤ i → i < scanFwdAux c ty len fuel e → c i = ty := by
  intro fuel
  induction fuel with
  | zero => intro e i h1 h2; rw [scanFwdAux] at h2; omega
  | succ m ih =>
    intro e i h1 h2
    rw [scanFwdAux] at h2
    by_cases hc : e < len ∧ c e = ty
    · rw [if_pos hc] at h2
      rcases Nat.lt_or_ge i (e + 1) with h3 | h3
      · have : i = e := by omega
        rw [this]; exact hc.2
      · exact ih (e + 1) i h3 h2
    · rw [if_neg hc] at h2
      omega

theorem scanFwdAux_boundary (c : Nat → Bool) (ty : Bool) (len : Nat) :
    ∀ fuel e, len - e ≤ fuel → scanFwdAux c ty len fuel e < len →
      c (scanFwdAux c ty len fuel e) ≠ ty := by
  intro fuel
  induction fuel with
  | zero => intro e h1 h2; rw [scanFwdAux] at h2; omega
  | succ m ih =>
    intro e h1 h2
    rw [scanFwdAux] at h2 ⊢
    by_cases hc : e < len ∧ c e = ty
    · rw [if_pos hc] at h2 ⊢
      exact ih (e + 1) (by omega) h2
    · rw [if_neg hc] at h2 ⊢
      intro h3
      exact hc ⟨h2, h3⟩

/-- C8: word-boundary expansion selects exactly the maximal run of
same-class characters around the (clamped) anchor — every character in the
selected range has the anchor's class and both characters flanking the range
(when they exist) have the other class — and on `"Hello, world!"` an anchor
at any offset inside `"Hello"` yields exactly the range [0, 5), while the
anchor on the comma (offset 5) yields exactly the punctuation run [5, 7)
between the two words. -/
theorem C8_word_expansion :
    (∀ (text : List Char) (off : Int) (s e : Nat),
      selectWord text off = some (s, e) →
      s ≤ clampAnchor text.length off ∧ clampAnchor text.length off < e ∧
      e ≤ text.length ∧
      (∀ i, s ≤ i → i < e → cls text i = cls text (clampAnchor text.length off)) ∧
      (0 < s → cls text (s - 1) ≠ cls text (clampAnchor text.length off)) ∧
      (e < text.length → cls text e ≠ cls text (clampAnchor text.length off))) ∧
    (∀ a : Int, 0 ≤ a → a < 5 →
      selectWord ("Hello, world!".toList) a = some (0, 5)) ∧
    selectWord ("Hello, world!".toList) 5 = some (5, 7) := by
  refine ⟨?_, ?_, by decide⟩
  · intro text off s e hsel
    rw [selectWord] at hsel
    by_cases hemp : text.isEmpty
    · rw [if_pos hemp] at hsel; exact absurd hsel (by simp)
    · rw [if_neg hemp] at hsel
      have hlen : 0 < text.length := by
        cases text with
        | nil => exact absurd rfl hemp
        | cons a as => simp
      obtain ⟨hs, he⟩ := Prod.mk.injEq .. ▸ Option.some_inj.mp hsel
      subst hs he
      refine ⟨scanBack_le _ _ _, ?_, ?_, ?_, ?_, ?_⟩
      · exact Nat.lt_of_succ_le (scanFwdAux_ge _ _ _ _ _)
      · exact scanFwdAux_le _ _ _ _ _ (clampAnchor_lt hlen off)
      · intro i h1 h2
        rcases Nat.lt_or_ge i (clampAnchor text.length off) with h3 | h3
        · exact scanBack_cls _ _ _ i h1 h3
        · rcases Nat.eq_or_lt_of_le h3 with h4 | h4
          · rw [← h4]
          · exact scanFwdAux_cls _ _ _ _ _ i h4 h2
      · exact scanBack_boundary _ _ _
      · exact scanFwdAux_boundary _ _ _ _ _ (le_refl _)
  · intro a h1 h2
    interval_cases a <;> decide

/-- Witness for C8 at the concrete anchor 2 (inside "Hello"). -/
theorem C8_word_expansion_witness :
    selectWord ("Hello, world!".toList) 2 = some (0, 5) :=
  C8_word_expansion.2.1 2 (by norm_num) (by norm_num)

/-- C10: `selectWord` is total over anchor offsets on non-empty text: the
anchor is clamped into `[0, length-1]` (0 for negative offsets, `length-1`
for offsets at or past the end), the computed range satisfies
`0 ≤ start < end ≤ length` and contains the clamped anchor, and an anchor
at the very end of the text behaves exactly like an anchor on the last
character. -/
theorem C10_selectWord_total (text : List Char) (off : Int) (h : text ≠ []) :
    clampAnchor text.length off < text.length ∧
    (off < 0 → clampAnchor text.length off = 0) ∧
    ((text.length : Int) ≤ off → clampAnchor text.length off = text.length - 1) ∧
    (∃ s e, selectWord text off = some (s, e) ∧ s < e ∧ e ≤ text.length ∧
      s ≤ clampAnchor text.length off ∧ clampAnchor text.length off < e) ∧
    selectWord text (text.length : Int) = selectWord text ((text.length : Int) - 1) := by
  have hlen : 0 < text.length := List.length_pos.mpr h
  have hemp : text.isEmpty = false := by
    cases text with
    | nil => exact absurd rfl h
    | cons a as => rfl
  refine ⟨clampAnchor_lt hlen off, fun hn => clampAnchor_neg hn,
    fun hb => clampAnchor_big hlen hb, ?_, ?_⟩
  · refine ⟨scanBack (cls text) (cls text (clampAnchor text.length off))
        (clampAnchor text.length off),
      scanFwdAux (cls text) (cls text (clampAnchor text.length off)) text.length
        (text.length - (clampAnchor text.length off + 1))
        (clampAnchor text.length off + 1), ?_, ?_, ?_, ?_, ?_⟩
    · rw [selectWord, if_neg (by rw [hemp]; simp)]
    · exact Nat.lt_of_le_of_lt (scanBack_le _ _ _)
        (Nat.lt_of_succ_le (scanFwdAux_ge _ _ _ _ _))
    · exact scanFwdAux_le _ _ _ _ _ (clampAnchor_lt hlen off)
    · exact scanBack_le _ _ _
    · exact Nat.lt_of_succ_le (scanFwdAux_ge _ _ _ _ _)
  · have hclamp : clampAnchor text.length (text.length : Int)
        = clampAnchor text.length ((text.length : Int) - 1) := by
      simp only [clampAnchor]
      split <;> (try split) <;> omega
    rw [selectWord, selectWord, hclamp]

/-- Witness for C10 at concrete text "ab" and the out-of-range offset 5. -/
theorem C10_selectWord_total_witness :
    ∃ s e, selectWord ['a', 'b'] 5 = some (s, e) ∧ s < e ∧ e ≤ 2 ∧
      s ≤ clampAnchor 2 5 ∧ clampAnchor 2 5 < e := by
  have h := C10_selectWord_total ['a', 'b'] 5 (by simp)
  simpa using h.2.2.2.1

/-- C9: `union` treats a null operand as an identity, and on non-null boxes
returns the minimal axis-aligned box containing both: it contains each
operand, and any box containing both operands contains the union. -/
theorem C9_union_identity_and_minimal :
    (∀ b : Option Rect, unionO none b = b) ∧
    (∀ a : Option Rect, unionO a none = a) ∧
    (∀ a b : Rect,
      containsB (union a b) a = true ∧
      containsB (union a b) b = true ∧
      (∀ c : Rect, containsB c a = true → containsB c b = true →
        containsB c (union a b) = true)) := by
  refine ⟨fun b => rfl, fun a => by cases a <;> rfl, fun a b => ?_⟩
  refine ⟨?_, ?_, ?_⟩
  · simp [containsB, union, le_of_lt, min_le_iff, le_max_iff]
  · simp [containsB, union, min_le_iff, le_max_iff]
  · intro c ha hb
    simp only [containsB, union, Bool.and_eq_true, decide_eq_true_eq] at ha hb ⊢
    exact ⟨⟨⟨le_min ha.1.1.1 hb.1.1.1, max_le ha.1.1.2 hb.1.1.2⟩,
      le_min ha.1.2 hb.1.2⟩, max_le ha.2 hb.2⟩

/-- Witness for C9 at concrete boxes. -/
theorem C9_union_identity_and_minimal_witness :
    containsB (Rect.mk 0 0 30 30) (union (Rect.mk 0 0 10 10) (Rect.mk 20 20 30 30)) = true := by
  refine (C9_union_identity_and_minimal.2.2 (Rect.mk 0 0 10 10) (Rect.mk 20 20 30 30)).2.2
    (Rect.mk 0 0 30 30) (by decide) (by decide)

end WebLingua
